import Mathlib

/-!
A verification development for an anomaly-detection diffusion pipeline.

The Python source is embedded shallowly:

* a tensor is modelled elementwise, either as a function `ι → ℚ` over a finite
  index type (sampler, noise generator, forward process, loss), or as a
  `List ℚ` (heat-map normalization and fusion, whose claims are about
  min/max over the stored values);
* machine floats are modelled as exact rationals; the irrational primitives
  `sqrt`, `tanh` and `sigmoid` are abstracted as explicit function parameters
  (`sqrtq`, `tanhq`, `sigmo`) — none of the verified properties depend on
  their values, only on where they are applied;
* every call to a random primitive (`torch.randn_like`, `torch.rand_like`,
  Laplace sampling, the Perlin permutation table) is modelled by an explicit
  draw passed in as an argument, so the stochastic programs become pure
  functions of their random inputs.
-/

set_option linter.unusedVariables false

namespace Spec2Proof

abbrev Tensor (ι : Type) := ι → ℚ

/-! ### Embedding of `noise.py` (`AdaptiveNoiseGenerator`) -/

namespace Noise

variable {ι : Type} [Fintype ι]

/-- Constructor constant `self.adaptation_rate = 0.01`. -/
def adaptation_rate : ℚ := 1/100

/-- Constructor constant `self.min_std = 0.01`. -/
def min_std : ℚ := 1/100

/-- Constructor constant `self.max_std = 2.0`. -/
def max_std : ℚ := 2

/-- Elementwise sum of a tensor, `torch.sum`-style helper for the statistics. -/
def tsum (x : Tensor ι) : ℚ := ∑ i, x i

/-- Mean of all elements of a tensor. -/
def tmean (x : Tensor ι) : ℚ := tsum x / (Fintype.card ι : ℚ)

/-- `torch.std(x)`: square root of the Bessel-corrected variance (denominator
`N - 1`); the square root is the abstracted parameter `sqrtq`. -/
def tstd (sqrtq : ℚ → ℚ) (x : Tensor ι) : ℚ :=
  sqrtq ((∑ i, (x i - tmean x)^2) / ((Fintype.card ι : ℚ) - 1))

/-- Number of scalar elements in a stacked history `torch.stack(hist)`. -/
def histCount (hist : List (Tensor ι)) : ℕ := hist.length * Fintype.card ι

/-- Mean over all elements of all entries of a stacked history. -/
def histMean (hist : List (Tensor ι)) : ℚ :=
  (hist.map tsum).sum / (histCount hist : ℚ)

/-- `torch.std(torch.stack(hist))`: Bessel-corrected standard deviation over
every element of every stacked entry. -/
def histStd (sqrtq : ℚ → ℚ) (hist : List (Tensor ι)) : ℚ :=
  sqrtq ((hist.map (fun t => ∑ i, (t i - histMean hist)^2)).sum /
    ((histCount hist : ℚ) - 1))

/-- `AdaptiveNoiseGenerator.calculate_adaptive_std` (noise.py lines 15-27).
When the history is non-empty it computes `current_std` over the last 100
history entries (the source binds it but never reads it again), then returns
`torch.clamp(signal_std * adaptation_rate, min_std, max_std)` where
`signal_std = torch.std(x)`; `torch.clamp(v, lo, hi) = min (max v lo) hi`.
With an empty history it returns `1.0`. -/
def calculate_adaptive_std (sqrtq : ℚ → ℚ) (noise_history : List (Tensor ι))
    (x : Tensor ι) : ℚ :=
  if 0 < noise_history.length then
    let recent_noise := noise_history.drop (noise_history.length - 100)
    let current_std := histStd sqrtq recent_noise
    let signal_std := tstd sqrtq x
    let adaptive_std := min (max (signal_std * adaptation_rate) min_std) max_std
    adaptive_std
  else 1

/-- One draw of every random primitive `get_noise` may consume:
`randn` and `randn2` are two independent `torch.randn_like(x)` draws,
`rand` is a `torch.rand_like(x)` draw, `laplace` a `Laplace(0,1)` sample and
`perlin` the output of `generate_perlin_noise` (whose internal permutation
table is randomness of its own, so the whole tensor is the draw). -/
structure RandDraws (ι : Type) where
  randn : Tensor ι
  randn2 : Tensor ι
  rand : Tensor ι
  laplace : Tensor ι
  perlin : Tensor ι

/-- History update at the end of `get_noise` (noise.py lines 62-64):
`if len(self.noise_history) >= 100: self.noise_history.pop(0)` followed by
`self.noise_history.append(noise)`. -/
def push_history {α : Type} (noise_history : List α) (noise : α) : List α :=
  (if 100 ≤ noise_history.length then noise_history.tail else noise_history) ++ [noise]

/-- `AdaptiveNoiseGenerator.get_noise` (noise.py lines 29-66), returning the
generated noise together with the updated `noise_history`.  The `seed`
branch only reseeds the global RNG, which here is the explicit `r` argument.
The final `else` branch prints a warning and falls back to plain Gaussian
noise; printing has no numeric effect and every branch (the fallback
included) is total, so no exception is ever raised. -/
def get_noise (sqrtq : ℚ → ℚ) (noise_history : List (Tensor ι)) (x : Tensor ι)
    (noise_type : String) (r : RandDraws ι) : Tensor ι × List (Tensor ι) :=
  let noise : Tensor ι :=
    if noise_type = "adaptive_gaussian" then
      fun i => r.randn i * calculate_adaptive_std sqrtq noise_history x
    else if noise_type = "gaussian" then r.randn
    else if noise_type = "uniform" then fun i => r.rand i * 2 - 1
    else if noise_type = "laplace" then r.laplace
    else if noise_type = "mixture" then
      fun i => if r.rand i > 1/2 then r.randn i else r.randn2 i * 2
    else if noise_type = "perlin" then r.perlin
    else r.randn
  (noise, push_history noise_history noise)

/-- One call of a sequence of `get_noise` invocations on a single generator
instance: the input tensor, the requested noise type and the random draws. -/
structure CallIn (ι : Type) where
  x : Tensor ι
  noise_type : String
  draws : RandDraws ι

/-- A sequence of `get_noise` calls threaded through one generator instance,
also recording the trace of all generated noise tensors in call order.
Returns `(trace, noise_history)`. -/
def run_get_noise (sqrtq : ℚ → ℚ) : List (CallIn ι) → List (Tensor ι) →
    List (Tensor ι) → List (Tensor ι) × List (Tensor ι)
  | [], trace, hist => (trace, hist)
  | c :: rest, trace, hist =>
    run_get_noise sqrtq rest
      (trace ++ [(get_noise sqrtq hist c.x c.noise_type c.draws).1])
      (get_noise sqrtq hist c.x c.noise_type c.draws).2

/-- The last `n` elements of a list (the shape of a bounded FIFO buffer). -/
def lastN {α : Type} (n : ℕ) (l : List α) : List α := l.drop (l.length - n)

/-- A concrete `get_noise` call input used to exercise the theorems below. -/
def example_call : CallIn (Fin 1) :=
  ⟨fun _ => 0, "gaussian", ⟨fun _ => 1, fun _ => 0, fun _ => 0, fun _ => 0, fun _ => 0⟩⟩

end Noise

/-! ### Embedding of `forward_process.py` (`AdaptiveForwardDiffusion`) -/

namespace Forward

/-- `AdaptiveForwardDiffusion.get_index_from_list` (forward_process.py lines
13-17): a batched gather `vals.gather(-1, t)` followed by a reshape to
`[batch, 1, 1, ...]`; elementwise this selects, for batch element `b`, the
schedule entry at that element's own index `t b`. -/
def get_index_from_list {B : ℕ} (vals : List ℚ) (t : Fin B → ℕ) : Fin B → ℚ :=
  fun b => vals.getD (t b) 0

/-- `AdaptiveForwardDiffusion.forward_diffusion_sample` (forward_process.py
lines 24-62).  A batched input is `x_0 : Fin B → Sp → ℚ` (`Sp` is the
channel-by-spatial index type, e.g. `Fin 1 × Fin 4 × Fin 4` for a
`[B,1,4,4]` tensor), so the output has the same shape as the input by
construction.  The internal `self.noise_generator.get_noise(x_0, ...)` call
is abstracted to the generated noise tensor passed in as `noise`.  Returns
`(x, noise)` with `x = sqrt_alphas_cumprod[t]*x_0 +
sqrt_one_minus_alphas_cumprod[t]*noise`. -/
def forward_diffusion_sample {B : ℕ} {Sp : Type}
    (sqrt_alphas_cumprod sqrt_one_minus_alphas_cumprod : List ℚ)
    (x_0 : Fin B → Sp → ℚ) (t : Fin B → ℕ) (noise : Fin B → Sp → ℚ) :
    (Fin B → Sp → ℚ) × (Fin B → Sp → ℚ) :=
  (fun b s =>
      get_index_from_list sqrt_alphas_cumprod t b * x_0 b s +
      get_index_from_list sqrt_one_minus_alphas_cumprod t b * noise b s,
   noise)

end Forward

/-! ### Embedding of `loss.py` (`get_loss`) -/


namespace Loss

variable {B N : ℕ}

/-- `F.mse_loss(a, b)` with the default mean reduction over every element of
a `[B, N]`-shaped pair of tensors. -/
def mse_loss (a b : Fin B → Fin N → ℚ) : ℚ :=
  (∑ i, ∑ j, (a i j - b i j)^2) / ((B : ℚ) * (N : ℚ))

/-- `(1-b).cumprod(dim=0).index_select(0, t)` at one batch index: the product
of `1 - beta` over all schedule entries up to and including `t`. -/
def alpha_cumprod (betas : List ℚ) (t : ℕ) : ℚ :=
  ((betas.take (t + 1)).map (fun β => 1 - β)).prod

/-- The noised input of `get_loss` (loss.py line 31):
`x = at.sqrt() * x_0 + (1 - at).sqrt() * e` with the per-sample `at`. -/
def noised (sqrtq : ℚ → ℚ) (betas : List ℚ) (x_0 : Fin B → Fin N → ℚ)
    (t : Fin B → ℕ) (e : Fin B → Fin N → ℚ) : Fin B → Fin N → ℚ :=
  fun b n => sqrtq (alpha_cumprod betas (t b)) * x_0 b n +
    sqrtq (1 - alpha_cumprod betas (t b)) * e b n

/-- The model output of `get_loss` (loss.py line 34). -/
def model_output (sqrtq : ℚ → ℚ)
    (model : (Fin B → Fin N → ℚ) → (Fin B → ℕ) → (Fin B → Fin N → ℚ))
    (betas : List ℚ) (x_0 : Fin B → Fin N → ℚ) (t : Fin B → ℕ)
    (e : Fin B → Fin N → ℚ) : Fin B → Fin N → ℚ :=
  model (noised sqrtq betas x_0 t e) t

/-- Loss term 1 (loss.py line 38): `base_loss = F.mse_loss(e, output)`. -/
def base_loss (sqrtq : ℚ → ℚ)
    (model : (Fin B → Fin N → ℚ) → (Fin B → ℕ) → (Fin B → Fin N → ℚ)) (betas : List ℚ)
    (x_0 : Fin B → Fin N → ℚ) (t : Fin B → ℕ) (e : Fin B → Fin N → ℚ) : ℚ :=
  mse_loss e (model_output sqrtq model betas x_0 t e)

/-- Loss term 2 (loss.py lines 42-44): the elementwise squared error scaled
by the per-sample time weight `1 / (t + 1)`, then averaged. -/
def weighted_adaptive_loss (sqrtq : ℚ → ℚ)
    (model : (Fin B → Fin N → ℚ) → (Fin B → ℕ) → (Fin B → Fin N → ℚ)) (betas : List ℚ)
    (x_0 : Fin B → Fin N → ℚ) (t : Fin B → ℕ) (e : Fin B → Fin N → ℚ) : ℚ :=
  (∑ b, ∑ n,
      (e b n - model_output sqrtq model betas x_0 t e b n)^2 * (1 / ((t b : ℚ) + 1))) /
    ((B : ℚ) * (N : ℚ))

/-- Loss term 3 (loss.py line 47): `torch.norm(output - e, p=2)`, the square
root of the summed squared residual. -/
def noise_norm_loss (sqrtq : ℚ → ℚ)
    (model : (Fin B → Fin N → ℚ) → (Fin B → ℕ) → (Fin B → Fin N → ℚ)) (betas : List ℚ)
    (x_0 : Fin B → Fin N → ℚ) (t : Fin B → ℕ) (e : Fin B → Fin N → ℚ) : ℚ :=
  sqrtq (∑ b, ∑ n, (model_output sqrtq model betas x_0 t e b n - e b n)^2)

/-- `get_loss` (loss.py lines 8-68).  The fresh Gaussian noise
`torch.randn_like(x_0)` is the explicit draw `e`; the sigmoid is the
abstracted parameter `sigmo`.  Each loss term is mapped through the sigmoid
to a weight, the three weights are normalized by their total, and the result
is the normalized-weighted sum of the terms. -/
def get_loss (sqrtq sigmo : ℚ → ℚ)
    (model : (Fin B → Fin N → ℚ) → (Fin B → ℕ) → (Fin B → Fin N → ℚ))
    (betas : List ℚ) (x_0 : Fin B → Fin N → ℚ) (t : Fin B → ℕ)
    (e : Fin B → Fin N → ℚ) : ℚ :=
  let base := base_loss sqrtq model betas x_0 t e
  let adaptive := weighted_adaptive_loss sqrtq model betas x_0 t e
  let noiseL := noise_norm_loss sqrtq model betas x_0 t e
  let base_weight := sigmo base
  let adaptive_weight := sigmo adaptive
  let noise_weight := sigmo noiseL
  let total_weight := base_weight + adaptive_weight + noise_weight
  (base_weight / total_weight) * base +
    (adaptive_weight / total_weight) * adaptive +
    (noise_weight / total_weight) * noiseL

/-- The normalizing total `base_weight + adaptive_weight + noise_weight`
(loss.py line 56). -/
def total_weight (sqrtq sigmo : ℚ → ℚ)
    (model : (Fin B → Fin N → ℚ) → (Fin B → ℕ) → (Fin B → Fin N → ℚ))
    (betas : List ℚ) (x_0 : Fin B → Fin N → ℚ) (t : Fin B → ℕ)
    (e : Fin B → Fin N → ℚ) : ℚ :=
  sigmo (base_loss sqrtq model betas x_0 t e) +
    sigmo (weighted_adaptive_loss sqrtq model betas x_0 t e) +
    sigmo (noise_norm_loss sqrtq model betas x_0 t e)

end Loss

/-! ### Embedding of `anomaly_map.py` (normalization and fusion) -/

namespace AnomalyMap

/-- A heat-map tensor is a flat list of its scalar values. -/
abbrev T := List ℚ

/-- The float literal `1e-8` used by the normalizers. -/
def eps : ℚ := 1/100000000

/-- `tensor.min()` over a (nonempty) tensor; `0` on the empty tensor, which
torch would reject. -/
def tmin : List ℚ → ℚ
  | [] => 0
  | a :: l => l.foldl min a

/-- `tensor.max()` over a (nonempty) tensor; `0` on the empty tensor. -/
def tmax : List ℚ → ℚ
  | [] => 0
  | a :: l => l.foldl max a

/-- `calculate_min_max_of_tensors` (anomaly_map.py lines 254-258): the single
global minimum and maximum over a whole list of tensors, as the min of the
per-tensor minima and the max of the per-tensor maxima. -/
def calculate_min_max_of_tensors (tensors : List T) : ℚ × ℚ :=
  (tmin (tensors.map tmin), tmax (tensors.map tmax))

/-- `scale_values_between_zero_and_one` (anomaly_map.py lines 260-263):
every tensor is rescaled by the single global min/max,
`(tensor - min_value) / (max_value - min_value + 1e-8)`. -/
def scale_values_between_zero_and_one (tensors : List T) : List T :=
  let min_value := (calculate_min_max_of_tensors tensors).1
  let max_value := (calculate_min_max_of_tensors tensors).2
  tensors.map (fun tensor =>
    tensor.map (fun v => (v - min_value) / (max_value - min_value + eps)))

/-- Elementwise addition of two same-shaped tensors. -/
def tadd (a b : T) : T := List.zipWith (· + ·) a b

/-- Python `sum(latent_maps)`: the elementwise sum of a list of same-shaped
tensors (the scalar `0` start of the Python `sum` broadcasts away on the
first addition; the empty list is not used by the fusion claims). -/
def tsumlist : List T → T
  | [] => []
  | a :: l => l.foldl tadd a

/-- The closing line of `fuse_heat_maps` (anomaly_map.py line 316):
`(m - m.min()) / (m.max() - m.min() + 1e-8)`. -/
def normalize_self (m : T) : T :=
  m.map (fun v => (v - tmin m) / (tmax m - tmin m + eps))

/-- `fuse_heat_maps` (anomaly_map.py lines 265-316) specialized to
`adaptive_fusion=False` and `deep_supervision=False` (both branches off, as
in the claims): the three maps `[recon_map, feature_map, sum(latent_maps)]`
are normalized by `scale_values_between_zero_and_one`, combined with the
fixed weights `weights['recon']`, `weights['feature']`, `weights['latent']`
(here the explicit arguments `w_recon`, `w_feature`, `w_latent`), and the
fused map is re-normalized by its own min/max with the `1e-8` epsilon. -/
def fuse_heat_maps (recon_map feature_map : T) (latent_maps : List T)
    (w_recon w_feature w_latent : ℚ) : T :=
  normalize_self
    (List.zipWith (· + ·)
      (List.zipWith (· + ·)
        (((scale_values_between_zero_and_one
            [recon_map, feature_map, tsumlist latent_maps]).getD 0 []).map
          (fun v => w_recon * v))
        (((scale_values_between_zero_and_one
            [recon_map, feature_map, tsumlist latent_maps]).getD 1 []).map
          (fun v => w_feature * v)))
      (((scale_values_between_zero_and_one
          [recon_map, feature_map, tsumlist latent_maps]).getD 2 []).map
        (fun v => w_latent * v)))

end AnomalyMap

/-! ### Embedding of `sample.py` (the two reverse-sampler variants) -/

namespace Sample

variable {ι : Type} [Fintype ι]

/-- `torch.norm(x)`: square root (abstracted `sqrtq`) of the sum of squares. -/
def tnorm (sqrtq : ℚ → ℚ) (x : Tensor ι) : ℚ := sqrtq (∑ i, x i ^ 2)

/-- `compute_adaptive_noise_scale` (sample.py lines 15-29): the
signal-to-noise ratio `‖xt‖ / (‖et‖ + 1e-8)`, smoothed through `tanh`
(abstracted `tanhq`) after scaling by `0.1`, then clipped into
`[0.5, 1.5]` by `max(0.5, min(1.5, ·))`. -/
def compute_adaptive_noise_scale (sqrtq tanhq : ℚ → ℚ) (xt et : Tensor ι) : ℚ :=
  let noise_energy := tnorm sqrtq et
  let signal_energy := tnorm sqrtq xt
  let snr := signal_energy / (noise_energy + 1/100000000)
  let adaptive_scale := tanhq (snr * (1/10))
  max (1/2) (min (3/2) adaptive_scale)

/-- The radicand of the stochastic coefficient `c1` exactly as both sampler
variants write it (sample.py lines 66-68 and 112-114):
`(1 - at/at_next) * (1 - at_next) / (1 - at)` — the source applies `.sqrt()`
to this expression directly, with no clamping. -/
def c1_radicand (at' at_next : ℚ) : ℚ :=
  (1 - at' / at_next) * (1 - at_next) / (1 - at')

/-- `c1 = config.model.eta * ((1 - at/at_next) * (1 - at_next) / (1 - at)).sqrt()`:
the square root (abstracted `sqrtq`) receives the raw, unclamped radicand. -/
def c1_coeff (sqrtq : ℚ → ℚ) (eta at' at_next : ℚ) : ℚ :=
  eta * sqrtq (c1_radicand at' at_next)

/-- `c2 = ((1 - at_next) - c1 ** 2).sqrt()` (sample.py lines 69 and 115). -/
def c2_coeff (sqrtq : ℚ → ℚ) (eta at' at_next : ℚ) : ℚ :=
  sqrtq ((1 - at_next) - c1_coeff sqrtq eta at' at_next ^ 2)

/-- One iteration of the shared reverse-sampler loop body (sample.py lines
46-73 and 89-119).  `alphaOf` abstracts `compute_alpha2(b, ·)` /
`compute_alpha(b, ·)` (defined in `utilities.py`, outside the embedded
sources — its values never matter to the claims below); `zeroStoch` is true
exactly on the first iteration of the `DA` variant, where the source
replaces `c1`/`c2` by zero tensors; `noise` is the `torch.randn_like(x)`
draw of this step.  Returns `(xt_next, x0_t)`. -/
def sampler_step (sqrtq tanhq : ℚ → ℚ) (eta eta2 : ℚ)
    (model : Tensor ι → ℤ → Tensor ι) (y : Tensor ι) (alphaOf : ℤ → ℚ)
    (t next_t : ℤ) (zeroStoch : Bool) (noise xt : Tensor ι) :
    Tensor ι × Tensor ι :=
  let at' := alphaOf t
  let at_next := alphaOf next_t
  let et := model xt t
  let noise_scale := compute_adaptive_noise_scale sqrtq tanhq xt et
  let adaptive_eta2 := eta2 * noise_scale
  let yt : Tensor ι := fun i => sqrtq at' * y i + sqrtq (1 - at') * et i
  let et_hat : Tensor ι := fun i =>
    et i - sqrtq (1 - at') * adaptive_eta2 * (yt i - xt i)
  let x0_t : Tensor ι := fun i => (xt i - et_hat i * sqrtq (1 - at')) / sqrtq at'
  let c1 := if zeroStoch then 0 else c1_coeff sqrtq eta at' at_next
  let c2 := if zeroStoch then 0 else c2_coeff sqrtq eta at' at_next
  let xt_next : Tensor ι := fun i =>
    sqrtq at_next * x0_t i + c1 * noise i + c2 * et_hat i
  (xt_next, x0_t)

/-- The `(t, next_t)` pairs visited by `my_generalized_steps`: `idx` runs
from `m-1` down to `0` with `t = seq[idx]` and `next_t = seq[idx-1]`
(`-1` at `idx = 0`), i.e. the reversed sequence zipped with its own tail
extended by the `-1` sentinel. -/
def my_pairs (seq : List ℤ) : List (ℤ × ℤ) :=
  seq.reverse.zip (seq.reverse.tail ++ [-1])

/-- The `(i, j)` pairs visited by `DA_generalized_steps`:
`zip(reversed(seq), reversed(seq_next))` with `seq_next = [-1] + seq[:-1]`. -/
def da_pairs (seq : List ℤ) : List (ℤ × ℤ) :=
  seq.reverse.zip (([-1] ++ seq.dropLast).reverse)

/-- The sampler loop shared by both variants: walks the `(t, next_t)` pairs
with the running iteration counter `k`, current state `xt`, and the
accumulated `xs` / `x0_preds` histories (each step appends `xt_next` to `xs`
and `x0_t` to `x0_preds`, exactly as the source appends to its Python
lists).  With `da = true` the first iteration (`k = 0`) zeroes the
stochastic coefficients. -/
def steps_go (sqrtq tanhq : ℚ → ℚ) (eta eta2 : ℚ)
    (model : Tensor ι → ℤ → Tensor ι) (y : Tensor ι) (alphaOf : ℤ → ℚ)
    (noises : ℕ → Tensor ι) (da : Bool) :
    List (ℤ × ℤ) → ℕ → Tensor ι → List (Tensor ι) → List (Tensor ι) →
    List (Tensor ι) × List (Tensor ι)
  | [], _, _, xs, x0_preds => (xs, x0_preds)
  | (t, nt) :: rest, k, xt, xs, x0_preds =>
    let res := sampler_step sqrtq tanhq eta eta2 model y alphaOf t nt
      (da && k == 0) (noises k) xt
    steps_go sqrtq tanhq eta eta2 model y alphaOf noises da rest (k + 1) res.1
      (xs ++ [res.1]) (x0_preds ++ [res.2])

/-- `my_generalized_steps` (sample.py lines 31-75) for one batch element:
starts from `xs = [x]`, `x0_preds = []` and never zeroes the stochastic
coefficients.  `eta` is `config.model.eta`; the unused parameters `eta3`,
`constants_dict` and `eraly_stop` of the source are omitted. -/
def my_generalized_steps (sqrtq tanhq : ℚ → ℚ) (eta eta2 : ℚ)
    (model : Tensor ι → ℤ → Tensor ι) (y x : Tensor ι) (seq : List ℤ)
    (alphaOf : ℤ → ℚ) (noises : ℕ → Tensor ι) :
    List (Tensor ι) × List (Tensor ι) :=
  steps_go sqrtq tanhq eta eta2 model y alphaOf noises false (my_pairs seq) 0 x [x] []

/-- `DA_generalized_steps` (sample.py lines 77-121) for one batch element:
same skeleton, but the first iteration (`index == 0`) forces
`c1 = c2 = 0`.  The unused `at_half = compute_alpha(b, (t/2).long())` of the
source is dropped (it feeds nothing). -/
def DA_generalized_steps (sqrtq tanhq : ℚ → ℚ) (eta eta2 : ℚ)
    (model : Tensor ι → ℤ → Tensor ι) (y x : Tensor ι) (seq : List ℤ)
    (alphaOf : ℤ → ℚ) (noises : ℕ → Tensor ι) :
    List (Tensor ι) × List (Tensor ι) :=
  steps_go sqrtq tanhq eta eta2 model y alphaOf noises true (da_pairs seq) 0 x [x] []

end Sample

/-! ## Theorems -/

namespace Sample

/-- C1: The claim states that in both reverse-sampler variants the radicand
`(1 - at/at_next) * (1 - at_next) / (1 - at)` of `c1` is clamped at 0 before
the square root.  The source applies `.sqrt()` to the raw expression with no
clamp: at `at = 1/2, at_next = 1/4` (i.e. `alpha_i/alpha_j = 2 > 1`) the
radicand is `-3/2 < 0`, differs from its clamped value, and is handed to the
square root unchanged by `c1_coeff`; the `c2` radicand also goes negative
there, so in float arithmetic `c1` and `c2` would both be NaN. -/
theorem C1_radicand_not_clamped :
    c1_radicand (1/2) (1/4) = -(3/2) ∧
    c1_radicand (1/2) (1/4) < 0 ∧
    c1_radicand (1/2) (1/4) ≠ max 0 (c1_radicand (1/2) (1/4)) ∧
    c1_coeff id 1 (1/2) (1/4) = -(3/2) ∧
    c2_coeff id 1 (1/2) (1/4) = -(3/2) := by
  norm_num [c1_radicand, c1_coeff, c2_coeff]

end Sample

namespace Forward

/-- C7: with `x_0` the all-zeros `[1,1,4,4]` tensor, `t = [0]`,
`sqrt_alphas_cumprod[0] = 0.99`, `sqrt_one_minus_alphas_cumprod[0] = 0.14`
and the generated noise forced to all ones, `forward_diffusion_sample`
returns the all-`0.14` tensor (`0.99 * 0 + 0.14 * 1` at every position),
with the output shape equal to the input shape by the indexed tensor type. -/
theorem C7_forward_example :
    (@forward_diffusion_sample 1 (Fin 1 × Fin 4 × Fin 4)
        [99/100] [7/50] (fun _ _ => 0) (fun _ => 0) (fun _ _ => 1)).1 =
      (fun _ _ => (7/50 : ℚ)) ∧
    (@forward_diffusion_sample 1 (Fin 1 × Fin 4 × Fin 4)
        [99/100] [7/50] (fun _ _ => 0) (fun _ => 0) (fun _ _ => 1)).2 =
      (fun _ _ => (1 : ℚ)) := by
  constructor
  · funext b s
    simp [forward_diffusion_sample, get_index_from_list]
  · rfl

end Forward

namespace Noise

/-- C2 (counterexample): the claim has the standard deviation of the stored
history entering the adaptive scale as a smoothing baseline.  In the source
`current_std` is computed and discarded: two singleton histories with
history standard deviations `0` and `2` produce the same adaptive scale on
the same input. -/
theorem C2_history_std_unused_cex :
    calculate_adaptive_std id [(fun _ => 0 : Tensor (Fin 2))]
        (fun i => if i = 0 then 0 else 1) =
      calculate_adaptive_std id [(fun i => if i = 0 then 0 else 2 : Tensor (Fin 2))]
        (fun i => if i = 0 then 0 else 1) ∧
    histStd id [(fun _ => 0 : Tensor (Fin 2))] ≠
      histStd id [(fun i => if i = 0 then 0 else 2 : Tensor (Fin 2))] := by
  constructor
  · rfl
  · simp [histStd, histMean, histCount, tsum, Fin.sum_univ_two]
    norm_num

/-- C2 (amended): `adaptive_gaussian` noise is the unit Gaussian draw scaled
by `clamp(std(x) * adaptation_rate, min_std, max_std)` whenever the history
is non-empty — the history's own standard deviation is computed but does not
enter the scale — and by exactly `1` when the history is empty. -/
theorem C2_adaptive_gaussian_scale (sqrtq : ℚ → ℚ) {ι : Type} [Fintype ι]
    (hist : List (Tensor ι)) (x : Tensor ι) (r : RandDraws ι) :
    (get_noise sqrtq hist x "adaptive_gaussian" r).1 =
      fun i => r.randn i *
        (if 0 < hist.length
         then min (max (tstd sqrtq x * adaptation_rate) min_std) max_std
         else 1) := by
  funext i
  by_cases h : 0 < hist.length <;>
    simp [get_noise, calculate_adaptive_std, h]

/-- C10: the `adaptive_gaussian` scale depends on the history only through
emptiness: any two non-empty histories yield the same
`calculate_adaptive_std` and, with the same input and the same random draw,
the same generated noise. -/
theorem C10_scale_ignores_history (sqrtq : ℚ → ℚ) {ι : Type} [Fintype ι]
    (H1 H2 : List (Tensor ι)) (x : Tensor ι) (r : RandDraws ι)
    (h1 : H1 ≠ []) (h2 : H2 ≠ []) :
    calculate_adaptive_std sqrtq H1 x = calculate_adaptive_std sqrtq H2 x ∧
    (get_noise sqrtq H1 x "adaptive_gaussian" r).1 =
      (get_noise sqrtq H2 x "adaptive_gaussian" r).1 := by
  have l1 : 0 < H1.length := List.length_pos.mpr h1
  have l2 : 0 < H2.length := List.length_pos.mpr h2
  constructor
  · simp [calculate_adaptive_std, l1, l2]
  · funext i
    simp [get_noise, calculate_adaptive_std, l1, l2]

/-- Witness for `C10_scale_ignores_history` at two concrete non-empty
histories. -/
theorem C10_witness :
    calculate_adaptive_std id [(fun _ => 0 : Tensor (Fin 2))] (fun _ => 1) =
      calculate_adaptive_std id [(fun _ => 5 : Tensor (Fin 2))] (fun _ => 1) :=
  (C10_scale_ignores_history id [(fun _ => 0 : Tensor (Fin 2))] [(fun _ => 5)]
    (fun _ => 1) ⟨fun _ => 0, fun _ => 0, fun _ => 0, fun _ => 0, fun _ => 0⟩
    (by simp) (by simp)).1

/-- C9: for a `noise_type` outside the six supported strings, `get_noise`
returns the plain standard-Gaussian draw (same shape as `x` by the tensor
type), still appends that fallback noise to the history like every other
call, coincides with the `gaussian` branch, and — being a total function —
never raises. -/
theorem C9_unknown_type_fallback (sqrtq : ℚ → ℚ) {ι : Type} [Fintype ι]
    (hist : List (Tensor ι)) (x : Tensor ι) (ty : String) (r : RandDraws ι)
    (h : ty ∉ (["adaptive_gaussian", "gaussian", "uniform", "laplace",
      "mixture", "perlin"] : List String)) :
    (get_noise sqrtq hist x ty r).1 = r.randn ∧
    (get_noise sqrtq hist x ty r).2 = push_history hist r.randn ∧
    get_noise sqrtq hist x ty r = get_noise sqrtq hist x "gaussian" r := by
  simp only [List.mem_cons, List.not_mem_nil, or_false, not_or] at h
  obtain ⟨h1, h2, h3, h4, h5, h6⟩ := h
  refine ⟨?_, ?_, ?_⟩ <;> simp [get_noise, h1, h2, h3, h4, h5, h6]

/-- Witness for `C9_unknown_type_fallback` at the unknown type `"foo"`. -/
theorem C9_witness :
    (get_noise id ([] : List (Tensor (Fin 1))) (fun _ => 0) "foo"
        ⟨fun _ => 3, fun _ => 0, fun _ => 0, fun _ => 0, fun _ => 0⟩).1 =
      (fun _ => 3 : Tensor (Fin 1)) :=
  (C9_unknown_type_fallback id [] (fun _ => 0) "foo"
    ⟨fun _ => 3, fun _ => 0, fun _ => 0, fun _ => 0, fun _ => 0⟩ (by decide)).1

/-- The second component of `get_noise` is the pushed history. -/
theorem get_noise_snd (sqrtq : ℚ → ℚ) {ι : Type} [Fintype ι]
    (hist : List (Tensor ι)) (x : Tensor ι) (ty : String) (r : RandDraws ι) :
    (get_noise sqrtq hist x ty r).2 =
      push_history hist (get_noise sqrtq hist x ty r).1 := rfl

/-- Pushing onto a buffer that is the `lastN 100` view of a trace yields the
`lastN 100` view of the extended trace. -/
theorem push_history_lastN {α : Type} (l : List α) (e : α) :
    push_history (lastN 100 l) e = lastN 100 (l ++ [e]) := by
  unfold push_history lastN
  simp only [List.length_drop, List.length_append, List.length_singleton]
  by_cases hl : 100 ≤ l.length
  · rw [if_pos (by omega), List.tail_drop,
      show l.length + 1 - 100 = (l.length - 100) + 1 by omega,
      List.drop_append_of_le_length (by omega)]
  · rw [if_neg (by omega), show l.length - 100 = 0 by omega,
      show l.length + 1 - 100 = 0 by omega]
    simp

/-- Invariant of a run of `get_noise` calls: the history is always the
`lastN 100` view of the trace of generated noises, and the trace grows by
one entry per call. -/
theorem run_get_noise_invariant (sqrtq : ℚ → ℚ) {ι : Type} [Fintype ι]
    (calls : List (CallIn ι)) :
    ∀ trace : List (Tensor ι),
      (run_get_noise sqrtq calls trace (lastN 100 trace)).2 =
        lastN 100 (run_get_noise sqrtq calls trace (lastN 100 trace)).1 ∧
      (run_get_noise sqrtq calls trace (lastN 100 trace)).1.length =
        trace.length + calls.length := by
  induction calls with
  | nil => intro trace; simp [run_get_noise]
  | cons c rest ih =>
    intro trace
    simp only [run_get_noise, get_noise_snd, push_history_lastN]
    refine ⟨(ih _).1, ?_⟩
    rw [(ih _).2]
    simp [List.length_append]
    omega

/-- C3: from the empty generator state, after any sequence of `get_noise`
calls the history has at most 100 entries and equals the suffix of the
generated-noise trace past its first `length - 100` entries (FIFO: the
oldest entries are the ones dropped, and at capacity a push is
`tail ++ [e]`); the trace has one entry per call, and after exactly 150
calls the history is the last 100 generated tensors in call order. -/
theorem C3_history_bounded_fifo (sqrtq : ℚ → ℚ) {ι : Type} [Fintype ι]
    (calls : List (CallIn ι)) :
    (run_get_noise sqrtq calls [] []).2.length ≤ 100 ∧
    (run_get_noise sqrtq calls [] []).2 =
      (run_get_noise sqrtq calls [] []).1.drop
        ((run_get_noise sqrtq calls [] []).1.length - 100) ∧
    (run_get_noise sqrtq calls [] []).1.length = calls.length ∧
    (∀ (h : List (Tensor ι)) (e : Tensor ι), 100 ≤ h.length →
      push_history h e = h.tail ++ [e]) ∧
    (calls.length = 150 →
      (run_get_noise sqrtq calls [] []).2 =
        (run_get_noise sqrtq calls [] []).1.drop 50) := by
  have base := run_get_noise_invariant sqrtq calls []
  rw [show lastN 100 ([] : List (Tensor ι)) = [] from rfl] at base
  have hlen : (run_get_noise sqrtq calls [] []).1.length = calls.length := by
    rw [base.2]; simp
  refine ⟨?_, base.1, hlen, ?_, ?_⟩
  · rw [base.1]
    unfold lastN
    rw [List.length_drop]
    omega
  · intro h e he
    unfold push_history
    rw [if_pos he]
  · intro h150
    rw [base.1]
    unfold lastN
    rw [hlen, h150]

/-- Witness for `C3_history_bounded_fifo`: after 150 identical calls the
history is the trace minus its first 50 entries. -/
theorem C3_witness :
    (run_get_noise id (List.replicate 150 example_call) [] []).2 =
      (run_get_noise id (List.replicate 150 example_call) [] []).1.drop 50 :=
  (C3_history_bounded_fifo id (List.replicate 150 example_call)).2.2.2.2 (by simp)

end Noise

namespace AnomalyMap

/-- Folding `min` never exceeds the initial accumulator. -/
theorem foldl_min_le_init (l : List ℚ) : ∀ a : ℚ, l.foldl min a ≤ a := by
  induction l with
  | nil => intro a; simp
  | cons b t ih => intro a; exact le_trans (ih (min a b)) (min_le_left a b)

/-- Folding `min` is bounded by every list element. -/
theorem foldl_min_le_mem (l : List ℚ) : ∀ a x : ℚ, x ∈ l → l.foldl min a ≤ x := by
  induction l with
  | nil => intro a x hx; simp at hx
  | cons b t ih =>
    intro a x hx
    rcases List.mem_cons.mp hx with h | h
    · subst h
      exact le_trans (foldl_min_le_init t (min a x)) (min_le_right a x)
    · exact ih (min a b) x h

/-- `tensor.min()` is a lower bound for every element. -/
theorem tmin_le {l : List ℚ} {x : ℚ} (hx : x ∈ l) : tmin l ≤ x := by
  cases l with
  | nil => simp at hx
  | cons a t =>
    rcases List.mem_cons.mp hx with h | h
    · subst h; exact foldl_min_le_init t x
    · exact foldl_min_le_mem t a x h

/-- Folding `max` never drops below the initial accumulator. -/
theorem le_foldl_max_init (l : List ℚ) : ∀ a : ℚ, a ≤ l.foldl max a := by
  induction l with
  | nil => intro a; simp
  | cons b t ih => intro a; exact le_trans (le_max_left a b) (ih (max a b))

/-- Folding `max` dominates every list element. -/
theorem le_foldl_max_mem (l : List ℚ) : ∀ a x : ℚ, x ∈ l → x ≤ l.foldl max a := by
  induction l with
  | nil => intro a x hx; simp at hx
  | cons b t ih =>
    intro a x hx
    rcases List.mem_cons.mp hx with h | h
    · subst h
      exact le_trans (le_max_right a x) (le_foldl_max_init t (max a x))
    · exact ih (max a b) x h

/-- `tensor.max()` is an upper bound for every element. -/
theorem le_tmax {l : List ℚ} {x : ℚ} (hx : x ∈ l) : x ≤ tmax l := by
  cases l with
  | nil => simp at hx
  | cons a t =>
    rcases List.mem_cons.mp hx with h | h
    · subst h; exact le_foldl_max_init t x
    · exact le_foldl_max_mem t a x h

/-- The global minimum of `calculate_min_max_of_tensors` bounds every value
of every tensor in the list. -/
theorem global_min_le {ts : List T} {t : T} {v : ℚ} (ht : t ∈ ts) (hv : v ∈ t) :
    (calculate_min_max_of_tensors ts).1 ≤ v :=
  le_trans (tmin_le (List.mem_map_of_mem tmin ht)) (tmin_le hv)

/-- The global maximum of `calculate_min_max_of_tensors` dominates every
value of every tensor in the list. -/
theorem le_global_max {ts : List T} {t : T} {v : ℚ} (ht : t ∈ ts) (hv : v ∈ t) :
    v ≤ (calculate_min_max_of_tensors ts).2 :=
  le_trans (le_tmax hv) (le_tmax (List.mem_map_of_mem tmax ht))

/-- A function that commutes with binary `min` commutes with a `min` fold. -/
theorem foldl_min_map (f : ℚ → ℚ) (hf : ∀ a b, f (min a b) = min (f a) (f b))
    (l : List ℚ) : ∀ a : ℚ, (l.map f).foldl min (f a) = f (l.foldl min a) := by
  induction l with
  | nil => intro a; rfl
  | cons b t ih =>
    intro a
    simp only [List.map_cons, List.foldl_cons]
    rw [← hf, ih]

/-- `tmin` commutes with mapping a `min`-preserving function. -/
theorem tmin_map (f : ℚ → ℚ) (hf : ∀ a b, f (min a b) = min (f a) (f b))
    {l : List ℚ} (hl : l ≠ []) : tmin (l.map f) = f (tmin l) := by
  cases l with
  | nil => exact absurd rfl hl
  | cons a t => exact foldl_min_map f hf t a

/-- A function that commutes with binary `max` commutes with a `max` fold. -/
theorem foldl_max_map (f : ℚ → ℚ) (hf : ∀ a b, f (max a b) = max (f a) (f b))
    (l : List ℚ) : ∀ a : ℚ, (l.map f).foldl max (f a) = f (l.foldl max a) := by
  induction l with
  | nil => intro a; rfl
  | cons b t ih =>
    intro a
    simp only [List.map_cons, List.foldl_cons]
    rw [← hf, ih]

/-- `tmax` commutes with mapping a `max`-preserving function. -/
theorem tmax_map (f : ℚ → ℚ) (hf : ∀ a b, f (max a b) = max (f a) (f b))
    {l : List ℚ} (hl : l ≠ []) : tmax (l.map f) = f (tmax l) := by
  cases l with
  | nil => exact absurd rfl hl
  | cons a t => exact foldl_max_map f hf t a

/-- The normalizer `v ↦ (v - g)/D` commutes with `min` when `0 < D`. -/
theorem affine_min_comm (g D : ℚ) (hD : 0 < D) (a b : ℚ) :
    (min a b - g) / D = min ((a - g) / D) ((b - g) / D) := by
  rcases le_total a b with h | h
  · rw [min_eq_left h,
      min_eq_left (div_le_div_of_nonneg_right (by linarith) hD.le)]
  · rw [min_eq_right h,
      min_eq_right (div_le_div_of_nonneg_right (by linarith) hD.le)]

/-- The normalizer `v ↦ (v - g)/D` commutes with `max` when `0 < D`. -/
theorem affine_max_comm (g D : ℚ) (hD : 0 < D) (a b : ℚ) :
    (max a b - g) / D = max ((a - g) / D) ((b - g) / D) := by
  rcases le_total a b with h | h
  · rw [max_eq_right h,
      max_eq_right (div_le_div_of_nonneg_right (by linarith) hD.le)]
  · rw [max_eq_left h,
      max_eq_left (div_le_div_of_nonneg_right (by linarith) hD.le)]

/-- Re-normalizing an already `g/D`-normalized value collapses to a single
affine rescale whose denominator carries the extra `e * D` term. -/
theorem div_affine_compose (g D rmin rmax e v : ℚ) (hD : 0 < D)
    (hr : rmin ≤ rmax) (he : 0 < e) :
    ((v - g) / D - (rmin - g) / D) /
        ((rmax - g) / D - (rmin - g) / D + e) =
      (v - rmin) / ((rmax - rmin) + e * D) := by
  have hden : (0:ℚ) < (rmax - rmin) + e * D := by nlinarith
  have hden2 : (0:ℚ) < (rmax - g) / D - (rmin - g) / D + e := by
    rw [div_sub_div_same]
    have h2 : rmax - g - (rmin - g) = rmax - rmin := by ring
    rw [h2]
    have : (0:ℚ) ≤ (rmax - rmin) / D := div_nonneg (by linarith) hD.le
    linarith
  field_simp

/-- `sum(latent_maps)` of same-length tensors keeps that length. -/
theorem tsumlist_length {latents : List T} {n : ℕ} (hl : latents ≠ [])
    (hall : ∀ l ∈ latents, l.length = n) : (tsumlist latents).length = n := by
  cases latents with
  | nil => exact absurd rfl hl
  | cons a t =>
    have : ∀ (rest : List T) (acc : T), acc.length = n →
        (∀ l ∈ rest, l.length = n) → (rest.foldl tadd acc).length = n := by
      intro rest
      induction rest with
      | nil => intro acc ha _; exact ha
      | cons b r ih =>
        intro acc ha hb
        apply ih
        · unfold tadd
          rw [List.length_zipWith, ha, hb b (List.mem_cons_self b r)]
          simp
        · intro l hlr; exact hb l (List.mem_cons_of_mem b hlr)
    exact this t a (hall a (List.mem_cons_self a t))
      (fun l h => hall l (List.mem_cons_of_mem a h))

/-- Fusing with the fixed weights `1, 0, 0` collapses the weighted `zipWith`
sum of three same-length maps to the first map. -/
theorem zip_weights_one_zero_zero : ∀ (a b c : List ℚ),
    b.length = a.length → c.length = a.length →
    List.zipWith (· + ·)
      (List.zipWith (· + ·) (a.map (fun v => 1 * v)) (b.map (fun v => 0 * v)))
      (c.map (fun v => 0 * v)) = a := by
  intro a
  induction a with
  | nil =>
    intro b c hb hc
    simp
  | cons x a ih =>
    intro b c hb hc
    cases b with
    | nil => simp at hb
    | cons y b =>
      cases c with
      | nil => simp at hc
      | cons z c =>
        simp only [List.map_cons, List.zipWith_cons_cons, List.cons.injEq]
        exact ⟨by ring, ih b c (by simpa using hb) (by simpa using hc)⟩

/-- C6 (amended): on a non-empty list of non-empty tensors whose values are
not all equal, `scale_values_between_zero_and_one` is the affine rescaling
of every tensor by the single global min/max, every output value lies in
`[0, 1]`, the global minimum maps to `0`, and the global maximum maps to
`R / (R + 1e-8)` where `R` is the positive global range — strictly less
than 1 rather than equal to 1. -/
theorem C6_scale_affine_bounds (ts : List T) (h1 : ts ≠ [])
    (h2 : ∀ t ∈ ts, t ≠ [])
    (h3 : ∃ t1 ∈ ts, ∃ v1 ∈ t1, ∃ t2 ∈ ts, ∃ v2 ∈ t2, v1 ≠ v2) :
    scale_values_between_zero_and_one ts =
      ts.map (List.map (fun v => (v - (calculate_min_max_of_tensors ts).1) /
        ((calculate_min_max_of_tensors ts).2 -
          (calculate_min_max_of_tensors ts).1 + eps))) ∧
    (∀ u ∈ scale_values_between_zero_and_one ts, ∀ v ∈ u, 0 ≤ v ∧ v ≤ 1) ∧
    0 < (calculate_min_max_of_tensors ts).2 -
        (calculate_min_max_of_tensors ts).1 ∧
    ((calculate_min_max_of_tensors ts).2 - (calculate_min_max_of_tensors ts).1) /
        ((calculate_min_max_of_tensors ts).2 -
          (calculate_min_max_of_tensors ts).1 + eps) < 1 := by
  obtain ⟨t1, ht1, v1, hv1, t2, ht2, v2, hv2, hne⟩ := h3
  have b1 := global_min_le ht1 hv1
  have b2 := le_global_max ht1 hv1
  have b3 := global_min_le ht2 hv2
  have b4 := le_global_max ht2 hv2
  have heps : (0:ℚ) < eps := by norm_num [eps]
  have hD : 0 < (calculate_min_max_of_tensors ts).2 -
      (calculate_min_max_of_tensors ts).1 + eps := by linarith
  refine ⟨rfl, ?_, ?_, ?_⟩
  · intro u hu v hv
    simp only [scale_values_between_zero_and_one] at hu
    obtain ⟨t, ht, rfl⟩ := List.mem_map.mp hu
    obtain ⟨w, hw, rfl⟩ := List.mem_map.mp hv
    constructor
    · exact div_nonneg (by have := global_min_le ht hw; linarith) hD.le
    · rw [div_le_one hD]
      have := le_global_max ht hw
      linarith
  · by_contra hcon
    push_neg at hcon
    exact hne (by linarith)
  · rw [div_lt_one hD]
    linarith

/-- Witness for `C6_scale_affine_bounds`: the affine-form conjunct at the
concrete input `[[0, 1]]`. -/
theorem C6_witness :
    scale_values_between_zero_and_one [[(0:ℚ), 1]] =
      [[(0:ℚ), 1]].map (List.map (fun v =>
        (v - (calculate_min_max_of_tensors [[(0:ℚ), 1]]).1) /
          ((calculate_min_max_of_tensors [[(0:ℚ), 1]]).2 -
            (calculate_min_max_of_tensors [[(0:ℚ), 1]]).1 + eps))) :=
  (C6_scale_affine_bounds [[0, 1]] (by simp) (by simp)
    ⟨[0, 1], by simp, 0, by simp, [0, 1], by simp, 1, by simp, by norm_num⟩).1

/-- C6 (counterexample): on `[[0, 1]]` the global maximum `1` is mapped to
`10^8 / (10^8 + 1)`, not to `1` — the `1e-8` regularizer keeps the top of
the range strictly below 1. -/
theorem C6_counterexample :
    scale_values_between_zero_and_one [[(0:ℚ), 1]] =
      [[0, 100000000/100000001]] ∧
    (100000000 : ℚ) / 100000001 ≠ 1 := by
  constructor
  · norm_num [scale_values_between_zero_and_one, calculate_min_max_of_tensors,
      tmin, tmax, eps]
  · norm_num

/-- C5 (amended): with the fixed weights `{recon: 1, feature: 0, latent: 0}`
and adaptive fusion and deep supervision disabled, `fuse_heat_maps` returns
the reconstruction map affinely rescaled as
`v ↦ (v - min recon) / ((max recon - min recon) + 1e-8 * D)`, where
`D = G - g + 1e-8` is the global normalization denominator over all three
maps.  It equals the min-max normalized reconstruction map only up to the
`1e-8` regularization terms, through which the other maps' global range
still enters, so the output is not exactly the normalized reconstruction
map. -/
theorem C5_fixed_weight_fusion (recon feature : T) (latents : List T)
    (hrec : recon ≠ []) (hfeat : feature.length = recon.length)
    (hlat : latents ≠ []) (hlats : ∀ l ∈ latents, l.length = recon.length) :
    fuse_heat_maps recon feature latents 1 0 0 =
      recon.map (fun v => (v - tmin recon) /
        ((tmax recon - tmin recon) + eps *
          ((calculate_min_max_of_tensors [recon, feature, tsumlist latents]).2 -
            (calculate_min_max_of_tensors [recon, feature, tsumlist latents]).1 +
            eps))) := by
  have heps : (0:ℚ) < eps := by norm_num [eps]
  obtain ⟨v0, hv0⟩ := List.exists_mem_of_ne_nil recon hrec
  have hgG : (calculate_min_max_of_tensors [recon, feature, tsumlist latents]).1 ≤
      (calculate_min_max_of_tensors [recon, feature, tsumlist latents]).2 :=
    le_trans (global_min_le (List.mem_cons_self _ _) hv0)
      (le_global_max (List.mem_cons_self _ _) hv0)
  have hrmm : tmin recon ≤ tmax recon := le_trans (tmin_le hv0) (le_tmax hv0)
  set g := (calculate_min_max_of_tensors [recon, feature, tsumlist latents]).1
    with hgdef
  set G := (calculate_min_max_of_tensors [recon, feature, tsumlist latents]).2
    with hGdef
  have hD : 0 < G - g + eps := by linarith
  have hscale : scale_values_between_zero_and_one
      [recon, feature, tsumlist latents] =
      [recon.map (fun v => (v - g) / (G - g + eps)),
        feature.map (fun v => (v - g) / (G - g + eps)),
        (tsumlist latents).map (fun v => (v - g) / (G - g + eps))] := rfl
  have hkey := zip_weights_one_zero_zero
    (recon.map (fun v => (v - g) / (G - g + eps)))
    (feature.map (fun v => (v - g) / (G - g + eps)))
    ((tsumlist latents).map (fun v => (v - g) / (G - g + eps)))
    (by simp [hfeat]) (by simp [tsumlist_length hlat hlats])
  have htminf : tmin (recon.map (fun v => (v - g) / (G - g + eps))) =
      (tmin recon - g) / (G - g + eps) :=
    tmin_map _ (affine_min_comm g (G - g + eps) hD) hrec
  have htmaxf : tmax (recon.map (fun v => (v - g) / (G - g + eps))) =
      (tmax recon - g) / (G - g + eps) :=
    tmax_map _ (affine_max_comm g (G - g + eps) hD) hrec
  unfold fuse_heat_maps
  rw [hscale]
  rw [show ([recon.map (fun v => (v - g) / (G - g + eps)),
      feature.map (fun v => (v - g) / (G - g + eps)),
      (tsumlist latents).map (fun v => (v - g) / (G - g + eps))].getD 0 []) =
    recon.map (fun v => (v - g) / (G - g + eps)) from rfl]
  rw [show ([recon.map (fun v => (v - g) / (G - g + eps)),
      feature.map (fun v => (v - g) / (G - g + eps)),
      (tsumlist latents).map (fun v => (v - g) / (G - g + eps))].getD 1 []) =
    feature.map (fun v => (v - g) / (G - g + eps)) from rfl]
  rw [show ([recon.map (fun v => (v - g) / (G - g + eps)),
      feature.map (fun v => (v - g) / (G - g + eps)),
      (tsumlist latents).map (fun v => (v - g) / (G - g + eps))].getD 2 []) =
    (tsumlist latents).map (fun v => (v - g) / (G - g + eps)) from rfl]
  rw [hkey]
  unfold normalize_self
  rw [htminf, htmaxf, List.map_map]
  congr 1
  funext v
  simp only [Function.comp_apply]
  exact div_affine_compose g (G - g + eps) (tmin recon) (tmax recon) eps v hD
    hrmm heps

/-- Witness for `C5_fixed_weight_fusion` at concrete shape-compatible maps. -/
theorem C5_witness :
    fuse_heat_maps [(0:ℚ), 1] [0, 3] [[0, 0]] 1 0 0 =
      [(0:ℚ), 1].map (fun v => (v - tmin [(0:ℚ), 1]) /
        ((tmax [(0:ℚ), 1] - tmin [(0:ℚ), 1]) + eps *
          ((calculate_min_max_of_tensors
              [[(0:ℚ), 1], [0, 3], tsumlist [[0, 0]]]).2 -
            (calculate_min_max_of_tensors
              [[(0:ℚ), 1], [0, 3], tsumlist [[0, 0]]]).1 + eps))) :=
  C5_fixed_weight_fusion [0, 1] [0, 3] [[0, 0]] (by simp) (by simp) (by simp)
    (by simp)

/-- C5 (counterexample): at `recon = [0,1]`, `feature = [0,3]`,
`latent = [[0,0]]` the fused output differs from the normalized
reconstruction map alone — both from the code's own normalizer applied to
the reconstruction map by itself and from the ideal min-max normalization
`[0, 1]` — because the `1e-8` epsilon terms carry the other maps' range
into the result. -/
theorem C5_counterexample :
    fuse_heat_maps [(0:ℚ), 1] [0, 3] [[0, 0]] 1 0 0 ≠
      (scale_values_between_zero_and_one [[(0:ℚ), 1]]).getD 0 [] ∧
    fuse_heat_maps [(0:ℚ), 1] [0, 3] [[0, 0]] 1 0 0 ≠ [0, 1] := by
  refine ⟨?_, ?_⟩ <;>
    norm_num [fuse_heat_maps, normalize_self, scale_values_between_zero_and_one,
      calculate_min_max_of_tensors, tsumlist, tadd, tmin, tmax, eps, min_def,
      max_def]

end AnomalyMap

namespace Loss

/-- C8: the three loss terms of `get_loss` are the plain MSE, the
time-weighted MSE (weight `1/(t+1)`) and the L2 residual norm; each is
mapped through the sigmoid to an importance weight, the weights are
normalized by their total — so the three normalized weights sum exactly
to 1 whenever the sigmoid is positive, as the real sigmoid is — and the
returned loss is the sum of each normalized weight times its term. -/
theorem C8_loss_weighting {B N : ℕ} (sqrtq sigmo : ℚ → ℚ)
    (model : (Fin B → Fin N → ℚ) → (Fin B → ℕ) → (Fin B → Fin N → ℚ))
    (betas : List ℚ) (x_0 : Fin B → Fin N → ℚ) (t : Fin B → ℕ)
    (e : Fin B → Fin N → ℚ) (hpos : ∀ q : ℚ, 0 < sigmo q) :
    sigmo (base_loss sqrtq model betas x_0 t e) /
        total_weight sqrtq sigmo model betas x_0 t e +
      sigmo (weighted_adaptive_loss sqrtq model betas x_0 t e) /
        total_weight sqrtq sigmo model betas x_0 t e +
      sigmo (noise_norm_loss sqrtq model betas x_0 t e) /
        total_weight sqrtq sigmo model betas x_0 t e = 1 ∧
    get_loss sqrtq sigmo model betas x_0 t e =
      sigmo (base_loss sqrtq model betas x_0 t e) /
          total_weight sqrtq sigmo model betas x_0 t e *
          base_loss sqrtq model betas x_0 t e +
        sigmo (weighted_adaptive_loss sqrtq model betas x_0 t e) /
          total_weight sqrtq sigmo model betas x_0 t e *
          weighted_adaptive_loss sqrtq model betas x_0 t e +
        sigmo (noise_norm_loss sqrtq model betas x_0 t e) /
          total_weight sqrtq sigmo model betas x_0 t e *
          noise_norm_loss sqrtq model betas x_0 t e := by
  have hW : 0 < total_weight sqrtq sigmo model betas x_0 t e :=
    add_pos (add_pos (hpos _) (hpos _)) (hpos _)
  refine ⟨?_, rfl⟩
  rw [div_add_div_same, div_add_div_same]
  exact div_self hW.ne'

/-- Witness for `C8_loss_weighting` with the constant-one sigmoid (positive
everywhere), the identity model, an empty schedule and `B = N = 1`. -/
theorem C8_witness :
    (fun _ : ℚ => (1 : ℚ)) (base_loss (B := 1) (N := 1) id (fun x _ => x) []
        (fun _ _ => 1) (fun _ => 0) (fun _ _ => 0)) /
        total_weight (B := 1) (N := 1) id (fun _ => 1) (fun x _ => x) []
          (fun _ _ => 1) (fun _ => 0) (fun _ _ => 0) +
      (fun _ : ℚ => (1 : ℚ)) (weighted_adaptive_loss (B := 1) (N := 1) id
        (fun x _ => x) [] (fun _ _ => 1) (fun _ => 0) (fun _ _ => 0)) /
        total_weight (B := 1) (N := 1) id (fun _ => 1) (fun x _ => x) []
          (fun _ _ => 1) (fun _ => 0) (fun _ _ => 0) +
      (fun _ : ℚ => (1 : ℚ)) (noise_norm_loss (B := 1) (N := 1) id
        (fun x _ => x) [] (fun _ _ => 1) (fun _ => 0) (fun _ _ => 0)) /
        total_weight (B := 1) (N := 1) id (fun _ => 1) (fun x _ => x) []
          (fun _ _ => 1) (fun _ => 0) (fun _ _ => 0) = 1 :=
  (C8_loss_weighting id (fun _ => 1) (fun x _ => x) [] (fun _ _ => 1)
    (fun _ => 0) (fun _ _ => 0) (fun _ => one_pos)).1

end Loss

namespace Sample

/-- With `eta = 0` a single sampler step is independent of its Gaussian
draw: `c1 = eta * sqrt(...) = 0`, so the `c1 * randn_like(x)` term
vanishes and every other quantity is a function of the deterministic
inputs. -/
theorem sampler_step_noise_irrelevant {ι : Type} [Fintype ι]
    (sqrtq tanhq : ℚ → ℚ) (eta2 : ℚ) (model : Tensor ι → ℤ → Tensor ι)
    (y : Tensor ι) (alphaOf : ℤ → ℚ) (t nt : ℤ) (z : Bool)
    (n1 n2 xt : Tensor ι) :
    sampler_step sqrtq tanhq 0 eta2 model y alphaOf t nt z n1 xt =
      sampler_step sqrtq tanhq 0 eta2 model y alphaOf t nt z n2 xt := by
  unfold sampler_step c1_coeff
  cases z <;> simp

/-- The shared loop preserves noise-stream irrelevance at `eta = 0`. -/
theorem steps_go_noise_irrelevant {ι : Type} [Fintype ι]
    (sqrtq tanhq : ℚ → ℚ) (eta2 : ℚ) (model : Tensor ι → ℤ → Tensor ι)
    (y : Tensor ι) (alphaOf : ℤ → ℚ) (noises1 noises2 : ℕ → Tensor ι)
    (da : Bool) (pairs : List (ℤ × ℤ)) :
    ∀ (k : ℕ) (xt : Tensor ι) (xs x0_preds : List (Tensor ι)),
      steps_go sqrtq tanhq 0 eta2 model y alphaOf noises1 da pairs k xt xs x0_preds =
        steps_go sqrtq tanhq 0 eta2 model y alphaOf noises2 da pairs k xt xs x0_preds := by
  induction pairs with
  | nil => intros; rfl
  | cons p rest ih =>
    intro k xt xs x0_preds
    obtain ⟨t, nt⟩ := p
    simp only [steps_go]
    rw [sampler_step_noise_irrelevant sqrtq tanhq eta2 model y alphaOf t nt
      (da && k == 0) (noises1 k) (noises2 k) xt]
    exact ih _ _ _ _

/-- C4: with `eta = 0` the stochastic coefficient `c1` vanishes at every
step, so both reverse-sampler variants are deterministic functions of
`(y, x, seq, schedule, eta2)` and the model: two runs that differ only in
their fresh Gaussian draws produce identical `xs` and `x0_preds`
trajectories (and two runs with identical inputs are trivially equal,
the embedding being a pure function). -/
theorem C4_eta_zero_deterministic {ι : Type} [Fintype ι]
    (sqrtq tanhq : ℚ → ℚ) (eta2 : ℚ) (model : Tensor ι → ℤ → Tensor ι)
    (y x : Tensor ι) (seq : List ℤ) (alphaOf : ℤ → ℚ)
    (noises1 noises2 : ℕ → Tensor ι) :
    my_generalized_steps sqrtq tanhq 0 eta2 model y x seq alphaOf noises1 =
      my_generalized_steps sqrtq tanhq 0 eta2 model y x seq alphaOf noises2 ∧
    DA_generalized_steps sqrtq tanhq 0 eta2 model y x seq alphaOf noises1 =
      DA_generalized_steps sqrtq tanhq 0 eta2 model y x seq alphaOf noises2 :=
  ⟨steps_go_noise_irrelevant sqrtq tanhq eta2 model y alphaOf noises1 noises2
      false (my_pairs seq) 0 x [x] [],
    steps_go_noise_irrelevant sqrtq tanhq eta2 model y alphaOf noises1 noises2
      true (da_pairs seq) 0 x [x] []⟩

end Sample

end Spec2Proof
